import Mathlib

/-!
Verification development for the `relay` rendezvous server and client
(`Server.ts`, `Client.ts`, `lib/deduplicate.ts`, `lib/intersection.ts`).

JS objects keyed by strings (`Record<string, T>`) are modelled as
association lists in insertion order: assignment to an existing key
replaces the value in place, assignment to a fresh key appends, `delete`
removes the entry, and `for ... in` iterates in list order.  (The claims
checked here never depend on JS's integer-key iteration quirk: every
count or membership statement is order-independent.)
-/

namespace Relay

section RecordOps

variable {α : Type}

/-- Reading `m[k]` on a JS object: the value at key `k`, if present. -/
def rget (m : List (String × α)) (k : String) : Option α :=
  (m.find? (fun e => e.1 == k)).map (fun e => e.2)

/-- Assignment `m[k] = v` on a JS object: replace in place, or append if absent. -/
def rset : List (String × α) → String → α → List (String × α)
  | [], k, v => [(k, v)]
  | e :: rest, k, v => if e.1 = k then (k, v) :: rest else e :: rset rest k v

/-- The statement `delete m[k]` on a JS object. -/
def rdel : List (String × α) → String → List (String × α)
  | [], _ => []
  | e :: rest, k => if e.1 = k then rest else e :: rdel rest k

/-- The keys of a record, in order. -/
def rkeys (m : List (String × α)) : List String := m.map (fun e => e.1)

theorem rget_nil (k : String) : rget ([] : List (String × α)) k = none := rfl

theorem rget_cons (e : String × α) (m : List (String × α)) (k : String) :
    rget (e :: m) k = if e.1 = k then some e.2 else rget m k := by
  by_cases h : e.1 = k
  · have hb : (e.1 == k) = true := by simpa using h
    simp [rget, List.find?, hb, h]
  · have hb : (e.1 == k) = false := by simpa using h
    simp [rget, List.find?, hb, h]

theorem rset_cons (e : String × α) (m : List (String × α)) (k : String) (v : α) :
    rset (e :: m) k v = if e.1 = k then (k, v) :: m else e :: rset m k v := rfl

theorem rdel_cons (e : String × α) (m : List (String × α)) (k : String) :
    rdel (e :: m) k = if e.1 = k then m else e :: rdel m k := rfl

theorem rkeys_cons (e : String × α) (m : List (String × α)) :
    rkeys (e :: m) = e.1 :: rkeys m := rfl

theorem rget_rset_self (m : List (String × α)) (k : String) (v : α) :
    rget (rset m k v) k = some v := by
  induction m with
  | nil => simp [rset, rget_cons]
  | cons e rest ih =>
    rw [rset_cons]
    by_cases h : e.1 = k
    · rw [if_pos h, rget_cons, if_pos rfl]
    · rw [if_neg h, rget_cons, if_neg h]
      exact ih

theorem rget_rset_ne (m : List (String × α)) (k k' : String) (v : α)
    (h : k ≠ k') : rget (rset m k v) k' = rget m k' := by
  induction m with
  | nil =>
    rw [show rset ([] : List (String × α)) k v = [(k, v)] from rfl]
    rw [rget_cons, if_neg h]
  | cons e rest ih =>
    rw [rset_cons]
    by_cases he : e.1 = k
    · rw [if_pos he, rget_cons, rget_cons, if_neg h]
      rw [he, if_neg (fun hc => h hc)]
    · rw [if_neg he, rget_cons, rget_cons, ih]

theorem rset_absent (m : List (String × α)) (k : String) (v : α)
    (h : rget m k = none) : rset m k v = m ++ [(k, v)] := by
  induction m with
  | nil => rfl
  | cons e rest ih =>
    rw [rget_cons] at h
    by_cases he : e.1 = k
    · rw [if_pos he] at h; exact absurd h (by simp)
    · rw [if_neg he] at h
      rw [rset_cons, if_neg he, ih h, List.cons_append]

theorem rget_rdel_ne (m : List (String × α)) (k k' : String) (h : k ≠ k') :
    rget (rdel m k) k' = rget m k' := by
  induction m with
  | nil => rfl
  | cons e rest ih =>
    rw [rdel_cons]
    by_cases he : e.1 = k
    · rw [if_pos he, rget_cons, he, if_neg (fun hc => h hc)]
    · rw [if_neg he, rget_cons, rget_cons, ih]

theorem rget_eq_none_iff (m : List (String × α)) (k : String) :
    rget m k = none ↔ k ∉ rkeys m := by
  induction m with
  | nil => simp [rget_nil, rkeys]
  | cons e rest ih =>
    rw [rget_cons, rkeys_cons]
    by_cases he : e.1 = k
    · rw [if_pos he]
      simp [he]
    · rw [if_neg he]
      rw [ih]
      constructor
      · intro hk hc
        rcases List.mem_cons.mp hc with hc | hc
        · exact he hc.symm
        · exact hk hc
      · intro hk hc
        exact hk (List.mem_cons_of_mem _ hc)

theorem rkeys_rset (m : List (String × α)) (k : String) (v : α) :
    rkeys (rset m k v) = if k ∈ rkeys m then rkeys m else rkeys m ++ [k] := by
  induction m with
  | nil => simp [rset, rkeys]
  | cons e rest ih =>
    rw [rset_cons]
    by_cases he : e.1 = k
    · rw [if_pos he, rkeys_cons, rkeys_cons]
      have : k ∈ e.1 :: rkeys rest := by rw [he]; exact List.mem_cons_self _ _
      rw [if_pos this, he]
    · rw [if_neg he, rkeys_cons, rkeys_cons, ih]
      by_cases hk : k ∈ rkeys rest
      · rw [if_pos hk, if_pos (List.mem_cons_of_mem _ hk)]
      · rw [if_neg hk, if_neg ?_, List.cons_append]
        intro hc
        rcases List.mem_cons.mp hc with hc | hc
        · exact he hc.symm
        · exact hk hc

theorem rkeys_rset_nodup (m : List (String × α)) (k : String) (v : α)
    (h : (rkeys m).Nodup) : (rkeys (rset m k v)).Nodup := by
  rw [rkeys_rset]
  by_cases hk : k ∈ rkeys m
  · rw [if_pos hk]; exact h
  · rw [if_neg hk]
    rw [List.nodup_append]
    refine ⟨h, List.nodup_singleton _, ?_⟩
    intro x hx hx'
    rcases List.mem_singleton.mp hx' with rfl
    exact hk hx

theorem rkeys_rdel_sublist (m : List (String × α)) (k : String) :
    (rkeys (rdel m k)).Sublist (rkeys m) := by
  induction m with
  | nil => simp [rdel]
  | cons e rest ih =>
    rw [rdel_cons]
    by_cases he : e.1 = k
    · rw [if_pos he, rkeys_cons]
      exact List.sublist_cons_self _ _
    · rw [if_neg he, rkeys_cons, rkeys_cons]
      exact ih.cons₂ _

theorem rkeys_rdel_nodup (m : List (String × α)) (k : String)
    (h : (rkeys m).Nodup) : (rkeys (rdel m k)).Nodup :=
  (rkeys_rdel_sublist m k).nodup h

theorem rget_rdel_self (m : List (String × α)) (k : String)
    (h : (rkeys m).Nodup) : rget (rdel m k) k = none := by
  induction m with
  | nil => rfl
  | cons e rest ih =>
    rw [rkeys_cons, List.nodup_cons] at h
    rw [rdel_cons]
    by_cases he : e.1 = k
    · rw [if_pos he]
      rw [rget_eq_none_iff, ← he]
      exact h.1
    · rw [if_neg he, rget_cons, if_neg he]
      exact ih h.2

theorem rget_mem (m : List (String × α)) (k : String) (v : α)
    (h : rget m k = some v) : (k, v) ∈ m := by
  induction m with
  | nil => simp [rget_nil] at h
  | cons e rest ih =>
    rw [rget_cons] at h
    by_cases he : e.1 = k
    · rw [if_pos he] at h
      obtain ⟨e1, e2⟩ := e
      simp only at he
      subst he
      have : e2 = v := by injection h
      subst this
      exact List.mem_cons_self _ _
    · rw [if_neg he] at h
      exact List.mem_cons_of_mem _ (ih h)

theorem rset_rset_self (m : List (String × α)) (k : String) (v w : α) :
    rset (rset m k v) k w = rset m k w := by
  induction m with
  | nil => simp [rset]
  | cons e rest ih =>
    rw [rset_cons]
    by_cases he : e.1 = k
    · rw [if_pos he, rset_cons, if_pos rfl, rset_cons, if_pos he]
    · rw [if_neg he, rset_cons, if_neg he, rset_cons, if_neg he, ih]

theorem mem_rset (m : List (String × α)) (k : String) (v : α) (e : String × α)
    (h : e ∈ rset m k v) : e ∈ m ∨ e = (k, v) := by
  induction m with
  | nil =>
    rcases List.mem_singleton.mp h with rfl
    exact Or.inr rfl
  | cons f rest ih =>
    rw [rset_cons] at h
    by_cases hf : f.1 = k
    · rw [if_pos hf] at h
      rcases List.mem_cons.mp h with rfl | h
      · exact Or.inr rfl
      · exact Or.inl (List.mem_cons_of_mem _ h)
    · rw [if_neg hf] at h
      rcases List.mem_cons.mp h with rfl | h
      · exact Or.inl (List.mem_cons_self _ _)
      · rcases ih h with h | h
        · exact Or.inl (List.mem_cons_of_mem _ h)
        · exact Or.inr h

theorem rdel_sublist (m : List (String × α)) (k : String) :
    (rdel m k).Sublist m := by
  induction m with
  | nil => simp [rdel]
  | cons e rest ih =>
    rw [rdel_cons]
    by_cases he : e.1 = k
    · rw [if_pos he]; exact List.sublist_cons_self _ _
    · rw [if_neg he]; exact ih.cons₂ _

theorem rget_rdel_none (m : List (String × α)) (k k' : String)
    (h : rget m k' = none) : rget (rdel m k) k' = none := by
  by_cases hkk : k = k'
  · subst hkk
    induction m with
    | nil => rfl
    | cons e rest ih =>
      rw [rget_cons] at h
      by_cases he : e.1 = k
      · rw [if_pos he] at h; exact absurd h (by simp)
      · rw [if_neg he] at h
        rw [rdel_cons, if_neg he, rget_cons, if_neg he]
        exact ih h
  · rw [rget_rdel_ne m k k' hkk]
    exact h

end RecordOps

/-! ### `lib/deduplicate.ts` and `lib/intersection.ts` -/

/-- Reducer `deduplicate` from `lib/deduplicate.ts`:
`(acc, documentId) => acc.includes(documentId) ? acc : acc.concat(documentId)`. -/
def deduplicate (acc : List String) (documentId : String) : List String :=
  if acc.contains documentId then acc else acc ++ [documentId]

/-- Helper `intersection` from `lib/intersection.ts`:
`(a = [], b = []) => a.filter(documentId => b.includes(documentId))`. -/
def intersection (a b : List String) : List String :=
  a.filter (fun documentId => b.contains documentId)

theorem deduplicate_eq (acc : List String) (a : String) :
    deduplicate acc a = if a ∈ acc then acc else acc ++ [a] := by
  unfold deduplicate
  by_cases h : a ∈ acc
  · rw [if_pos (by simpa using h), if_pos h]
  · rw [if_neg (by simpa using h), if_neg h]

theorem mem_foldl_deduplicate (l acc : List String) (x : String) :
    x ∈ l.foldl deduplicate acc ↔ x ∈ acc ∨ x ∈ l := by
  induction l generalizing acc with
  | nil => simp
  | cons a rest ih =>
    rw [List.foldl_cons, ih, deduplicate_eq]
    by_cases h : a ∈ acc
    · rw [if_pos h]
      constructor
      · rintro (hx | hx)
        · exact Or.inl hx
        · exact Or.inr (List.mem_cons_of_mem _ hx)
      · rintro (hx | hx)
        · exact Or.inl hx
        · rcases List.mem_cons.mp hx with rfl | hx
          · exact Or.inl h
          · exact Or.inr hx
    · rw [if_neg h]
      constructor
      · rintro (hx | hx)
        · rcases List.mem_append.mp hx with hx | hx
          · exact Or.inl hx
          · rcases List.mem_singleton.mp hx with rfl
            exact Or.inr (List.mem_cons_self _ _)
        · exact Or.inr (List.mem_cons_of_mem _ hx)
      · rintro (hx | hx)
        · exact Or.inl (List.mem_append.mpr (Or.inl hx))
        · rcases List.mem_cons.mp hx with rfl | hx
          · exact Or.inl (List.mem_append.mpr (Or.inr (List.mem_singleton.mpr rfl)))
          · exact Or.inr hx

theorem nodup_foldl_deduplicate (l acc : List String) (h : acc.Nodup) :
    (l.foldl deduplicate acc).Nodup := by
  induction l generalizing acc with
  | nil => simpa using h
  | cons a rest ih =>
    rw [List.foldl_cons, deduplicate_eq]
    by_cases ha : a ∈ acc
    · rw [if_pos ha]; exact ih acc h
    · rw [if_neg ha]
      apply ih
      rw [List.nodup_append]
      refine ⟨h, List.nodup_singleton _, ?_⟩
      intro x hx hx'
      rcases List.mem_singleton.mp hx' with rfl
      exact ha hx

theorem foldl_deduplicate_subset (l acc : List String)
    (h : ∀ x ∈ l, x ∈ acc) : l.foldl deduplicate acc = acc := by
  induction l with
  | nil => rfl
  | cons a rest ih =>
    rw [List.foldl_cons, deduplicate_eq, if_pos (h a (List.mem_cons_self _ _))]
    exact ih (fun x hx => h x (List.mem_cons_of_mem _ hx))

theorem foldl_deduplicate_of_nodup (l acc : List String)
    (h : (acc ++ l).Nodup) : l.foldl deduplicate acc = acc ++ l := by
  induction l generalizing acc with
  | nil => simp
  | cons a rest ih =>
    have ha : a ∉ acc := by
      rw [List.nodup_append] at h
      intro hc
      exact h.2.2 hc (List.mem_cons_self _ _)
    rw [List.foldl_cons, deduplicate_eq, if_neg ha]
    rw [ih (acc ++ [a]) (by simpa using h)]
    simp

theorem mem_intersection (a b : List String) (x : String) :
    x ∈ intersection a b ↔ x ∈ a ∧ x ∈ b := by
  unfold intersection
  rw [List.mem_filter]
  constructor
  · rintro ⟨h1, h2⟩
    exact ⟨h1, by simpa using h2⟩
  · rintro ⟨h1, h2⟩
    exact ⟨h1, by simpa using h2⟩

theorem intersection_ne_nil (a b : List String) (x : String)
    (hx : x ∈ a) (hb : x ∈ b) : intersection a b ≠ [] := by
  intro hc
  have : x ∈ intersection a b := (mem_intersection a b x).mpr ⟨hx, hb⟩
  rw [hc] at this
  exact List.not_mem_nil x this

/-! ### The introduction (discovery) service of `Server.ts`

`peerId` and `documentId` are opaque strings.  A peer's introduction
socket is modelled by its `readyState`: `true` iff `WebSocket.OPEN`.
A socket message is either a well-formed encoding of a
`Message.ClientToServer` or a byte sequence on which the external codec's
`unpack` throws (the codec itself is an external collaborator). -/

abbrev PeerId := String
abbrev DocumentId := String

inductive ClientToServer : Type
  /-- `{ type: "❤️" }` (heartbeat). -/
  | heartbeat : ClientToServer
  | join (documentIds : List DocumentId) : ClientToServer
  | leave (documentIds : List DocumentId) : ClientToServer
deriving DecidableEq

inductive ServerToClient : Type
  | introduction (peerId : PeerId) (documentIds : List DocumentId) : ServerToClient
deriving DecidableEq

/-- A frame received on an introduction socket, as seen through the
external codec: either a well-formed encoding of a control message, or
bytes on which `unpack` throws. -/
inductive WireData : Type
  | valid (msg : ClientToServer) : WireData
  | malformed (bytes : List Nat) : WireData
deriving DecidableEq

/-- Helper `tryParse` in `handleIntroductionRequest`: `unpack` wrapped in
try/catch, returning the message or an `Error`. -/
def tryParse : WireData → Option ClientToServer
  | WireData.valid m => some m
  | WireData.malformed _ => none

/-- The server state relevant to the introduction service:
`this.peers` (socket per peer, `true` = readyState OPEN) and
`this.documentIds`. -/
structure IntroServer : Type where
  peers : List (PeerId × Bool)
  documentIds : List (PeerId × List DocumentId)
deriving DecidableEq

def IntroServer.init : IntroServer := ⟨[], []⟩

/-- Observable server actions: a frame actually written to a peer's
socket (`peer.send(pack(message))`), and the emitted events. -/
inductive SOut : Type
  | sent (receiver : PeerId) (msg : ServerToClient) : SOut
  | errorEvent (data : WireData) : SOut
  | introductionEvent (peerId : PeerId) : SOut
deriving DecidableEq

/-- Method `send(peer, message)`: writes iff the socket exists and
`peer.readyState === WebSocket.OPEN`; transient send errors are caught. -/
def send (st : IntroServer) (toPeer : PeerId) (message : ServerToClient) : List SOut :=
  match rget st.peers toPeer with
  | some true => [SOut.sent toPeer message]
  | _ => []

/-- Method `sendIntroduction(A, B, documentIds)`: sends to `A` an
`Introduction` message carrying the other peer `B`. -/
def sendIntroduction (st : IntroServer) (A B : PeerId)
    (documentIds : List DocumentId) : List SOut :=
  send st A (ServerToClient.introduction B documentIds)

/-- One iteration of the `for (const B in this.peers)` loop of the
`"Join"` case: skip `A` itself (`if (A === B) continue`), compute
`commonKeys = intersection(this.documentIds[A], this.documentIds[B])`
(an `undefined` entry defaulting to `[]`), and if `commonKeys.length`
is non-zero introduce both ways. -/
def introducePair (st : IntroServer) (A B : PeerId) : List SOut :=
  if A = B then []
  else
    if (intersection ((rget st.documentIds A).getD [])
        ((rget st.documentIds B).getD [])).isEmpty then []
    else
      sendIntroduction st A B (intersection ((rget st.documentIds A).getD [])
          ((rget st.documentIds B).getD []))
        ++ sendIntroduction st B A (intersection ((rget st.documentIds A).getD [])
          ((rget st.documentIds B).getD []))

/-- The whole `for (const B in this.peers)` loop. -/
def introduceAll (st : IntroServer) (A : PeerId) : List SOut :=
  st.peers.flatMap (fun bp => introducePair st A bp.1)

/-- Handler `handleIntroductionRequest(peerId)(data)` from `Server.ts`. -/
def handleIntroductionRequest (st : IntroServer) (A : PeerId) (data : WireData) :
    IntroServer × List SOut :=
  let currentDocumentIds := (rget st.documentIds A).getD []
  match tryParse data with
  | none => (st, [SOut.errorEvent data])
  | some message =>
    match message with
    | ClientToServer.heartbeat => (st, [])
    | ClientToServer.join ds =>
      let st' : IntroServer :=
        ⟨st.peers, rset st.documentIds A ((currentDocumentIds ++ ds).foldl deduplicate [])⟩
      (st', introduceAll st' A)
    | ClientToServer.leave ds =>
      (⟨st.peers, rset st.documentIds A (currentDocumentIds.filter (fun d => !(ds.contains d)))⟩,
        [])

/-- The events driving the introduction service: a peer's socket is
accepted (`openIntroductionConnection`), a frame arrives on it, its
readyState leaves OPEN, or it closes (`closeIntroductionConnection`). -/
inductive SEvent : Type
  | connect (peerId : PeerId) : SEvent
  | message (peerId : PeerId) (data : WireData) : SEvent
  | dropSocket (peerId : PeerId) : SEvent
  | closeIntro (peerId : PeerId) : SEvent
deriving DecidableEq

def introStep (st : IntroServer) : SEvent → IntroServer × List SOut
  | SEvent.connect p =>
    ({ st with peers := rset st.peers p true }, [SOut.introductionEvent p])
  | SEvent.message p d => handleIntroductionRequest st p d
  | SEvent.dropSocket p =>
    ({ st with peers := st.peers.map (fun e => if e.1 = p then (e.1, false) else e) }, [])
  | SEvent.closeIntro p =>
    ({ st with peers := rdel st.peers p, documentIds := rdel st.documentIds p }, [])

/-- Run a sequence of events, concatenating the outputs. -/
def introRun : IntroServer → List SEvent → IntroServer × List SOut
  | st, [] => (st, [])
  | st, ev :: evs =>
    let p := introStep st ev
    let q := introRun p.1 evs
    (q.1, p.2 ++ q.2)

theorem introRun_append (st : IntroServer) (l1 l2 : List SEvent) :
    introRun st (l1 ++ l2) =
      ((introRun (introRun st l1).1 l2).1,
        (introRun st l1).2 ++ (introRun (introRun st l1).1 l2).2) := by
  induction l1 generalizing st with
  | nil => rfl
  | cons ev rest ih =>
    simp only [List.cons_append, introRun, List.append_eq]
    rw [ih]
    simp [List.append_assoc]

theorem isEmpty_false_of_ne_nil {γ : Type} {l : List γ} (h : l ≠ []) :
    l.isEmpty = false := by
  cases l with
  | nil => exact absurd rfl h
  | cons a rest => rfl

/-- Shorthand for the event of receiving a well-formed `Join` frame. -/
def joinEv (p : PeerId) (ts : List DocumentId) : SEvent :=
  SEvent.message p (WireData.valid (ClientToServer.join ts))

theorem introStep_join (st : IntroServer) (p : PeerId) (ts : List DocumentId) :
    introStep st (joinEv p ts) =
      (⟨st.peers,
          rset st.documentIds p (((rget st.documentIds p).getD [] ++ ts).foldl deduplicate [])⟩,
        introduceAll
          ⟨st.peers,
            rset st.documentIds p (((rget st.documentIds p).getD [] ++ ts).foldl deduplicate [])⟩
          p) := rfl

theorem mem_send (st : IntroServer) (q : PeerId) (msg : ServerToClient) (o : SOut)
    (h : o ∈ send st q msg) : o = SOut.sent q msg ∧ rget st.peers q = some true := by
  unfold send at h
  cases hr : rget st.peers q with
  | none => rw [hr] at h; exact absurd h (List.not_mem_nil o)
  | some b =>
    cases b with
    | false => rw [hr] at h; exact absurd h (List.not_mem_nil o)
    | true =>
      rw [hr] at h
      exact ⟨List.mem_singleton.mp h, rfl⟩

theorem send_of_open (st : IntroServer) (q : PeerId) (msg : ServerToClient)
    (h : rget st.peers q = some true) : send st q msg = [SOut.sent q msg] := by
  unfold send
  rw [h]

theorem mem_introducePair (st : IntroServer) (A B : PeerId) (o : SOut)
    (h : o ∈ introducePair st A B) :
    A ≠ B ∧ ∃ common,
      (o = SOut.sent A (ServerToClient.introduction B common) ∨
        o = SOut.sent B (ServerToClient.introduction A common)) := by
  unfold introducePair at h
  by_cases hAB : A = B
  · rw [if_pos hAB] at h; exact absurd h (List.not_mem_nil o)
  · rw [if_neg hAB] at h
    refine ⟨hAB, ?_⟩
    by_cases he : (intersection ((rget st.documentIds A).getD [])
        ((rget st.documentIds B).getD [])).isEmpty
    · rw [if_pos he] at h; exact absurd h (List.not_mem_nil o)
    · rw [if_neg he] at h
      refine ⟨intersection ((rget st.documentIds A).getD [])
        ((rget st.documentIds B).getD []), ?_⟩
      rcases List.mem_append.mp h with h | h
      · exact Or.inl (mem_send _ _ _ _ h).1
      · exact Or.inr (mem_send _ _ _ _ h).1

/-- Every `Introduction` frame a single step writes names a peer other
than its receiver. -/
theorem introStep_no_self (st : IntroServer) (ev : SEvent) (r about : PeerId)
    (ds : List DocumentId)
    (h : SOut.sent r (ServerToClient.introduction about ds) ∈ (introStep st ev).2) :
    r ≠ about := by
  cases ev with
  | connect p => simp [introStep] at h
  | dropSocket p => simp [introStep] at h
  | closeIntro p => simp [introStep] at h
  | message p d =>
    cases d with
    | malformed bytes => simp [introStep, handleIntroductionRequest, tryParse] at h
    | valid m =>
      cases m with
      | heartbeat => simp [introStep, handleIntroductionRequest, tryParse] at h
      | leave ds' => simp [introStep, handleIntroductionRequest, tryParse] at h
      | join ds' =>
        simp only [introStep, handleIntroductionRequest, tryParse, introduceAll] at h
        rcases List.mem_flatMap.mp h with ⟨bp, _, hmem⟩
        rcases mem_introducePair _ _ _ _ hmem with ⟨hne, common, hc | hc⟩
        · cases hc
          exact fun hra => hne (by rw [hra])
        · cases hc
          exact fun hra => hne (by rw [hra])

/-- C6 — No self-introduction: in every reachable server state (any event
sequence from the initial state), every `Introduction` frame written to a
peer `r` names a `peerId` different from `r`; the exclusion comes from
the `if (A === B) continue` peer-identity comparison, independent of
which topics `r` holds or rejoins. -/
theorem claim_C6_no_self_introduction (evs : List SEvent) (r about : PeerId)
    (ds : List DocumentId)
    (h : SOut.sent r (ServerToClient.introduction about ds) ∈
      (introRun IntroServer.init evs).2) :
    r ≠ about := by
  suffices hgen : ∀ (st : IntroServer) (l : List SEvent),
      SOut.sent r (ServerToClient.introduction about ds) ∈ (introRun st l).2 → r ≠ about by
    exact hgen IntroServer.init evs h
  intro st l
  induction l generalizing st with
  | nil => intro hmem; simp [introRun] at hmem
  | cons ev rest ih =>
    intro hmem
    simp only [introRun] at hmem
    rcases List.mem_append.mp hmem with hmem | hmem
    · exact introStep_no_self st ev r about ds hmem
    · exact ih _ hmem

/-- A closed instance exercising `claim_C6_no_self_introduction`. -/
theorem claim_C6_no_self_introduction_witness :
    SOut.sent "alice" (ServerToClient.introduction "bob" ["doc-1"]) ∈
      (introRun IntroServer.init
        [SEvent.connect "alice", SEvent.connect "bob",
          joinEv "alice" ["doc-1"], joinEv "bob" ["doc-1"]]).2 ∧
    ("alice" : PeerId) ≠ "bob" := by
  refine ⟨by decide, ?_⟩
  exact claim_C6_no_self_introduction
    [SEvent.connect "alice", SEvent.connect "bob",
      joinEv "alice" ["doc-1"], joinEv "bob" ["doc-1"]]
    "alice" "bob" ["doc-1"] (by decide)

/-- C9 — Malformed control message atomicity: a frame on which the codec's
`unpack` throws makes `handleIntroductionRequest` emit exactly one
non-fatal `error` event carrying the offending raw payload, and nothing
else: the server state (`peers` — so the sender's socket stays registered
and its readyState untouched — and `documentIds`) is returned unchanged
and no frame is written to any peer.  (The connection-endpoint `holding`
table lives in the broker component, which introduction frames never
touch by construction.) -/
theorem claim_C9_malformed_atomic (st : IntroServer) (p : PeerId) (bytes : List Nat) :
    introStep st (SEvent.message p (WireData.malformed bytes)) =
      (st, [SOut.errorEvent (WireData.malformed bytes)]) := rfl

/-- The interest list a `Join` stores for the joining peer. -/
theorem joined_documentIds (st : IntroServer) (p : PeerId) (ts : List DocumentId) :
    rget (introStep st (joinEv p ts)).1.documentIds p =
      some (((rget st.documentIds p).getD [] ++ ts).foldl deduplicate []) := by
  rw [introStep_join]
  exact rget_rset_self _ _ _

/-- Each step preserves duplicate-freeness of every stored interest list. -/
theorem introStep_preserves_nodup (st : IntroServer) (ev : SEvent)
    (h : ∀ e ∈ st.documentIds, List.Nodup e.2) :
    ∀ e ∈ (introStep st ev).1.documentIds, List.Nodup e.2 := by
  cases ev with
  | connect p => exact h
  | dropSocket p => exact h
  | closeIntro p =>
    intro e he
    exact h e ((rdel_sublist st.documentIds p).mem he)
  | message p d =>
    cases d with
    | malformed bytes => exact h
    | valid m =>
      cases m with
      | heartbeat => exact h
      | join ds =>
        intro e he
        rcases mem_rset _ _ _ _ he with he | he
        · exact h e he
        · rw [he]
          exact nodup_foldl_deduplicate _ [] List.nodup_nil
      | leave ds =>
        intro e he
        rcases mem_rset _ _ _ _ he with he | he
        · exact h e he
        · rw [he]
          apply List.Nodup.filter
          cases hg : rget st.documentIds p with
          | none => simp [hg]
          | some l0 =>
            simp only [hg, Option.getD_some]
            exact h (p, l0) (rget_mem _ _ _ hg)

/-- C5 — Idempotent join: processing the same `Join` twice leaves the
same `documentIds` table as processing it once, and after any event
sequence from the initial state every stored interest list holds each
topic at most once (`concat` + `reduce(deduplicate, [])`). -/
theorem claim_C5_idempotent_join :
    (∀ (st : IntroServer) (p : PeerId) (ts : List DocumentId),
      (introStep (introStep st (joinEv p ts)).1 (joinEv p ts)).1.documentIds =
        (introStep st (joinEv p ts)).1.documentIds) ∧
    (∀ (evs : List SEvent) (p : PeerId) (l : List DocumentId),
      rget (introRun IntroServer.init evs).1.documentIds p = some l → l.Nodup) := by
  constructor
  · intro st p ts
    rw [introStep_join]
    rw [introStep_join]
    simp only
    rw [rget_rset_self, Option.getD_some]
    set n1 := ((rget st.documentIds p).getD [] ++ ts).foldl deduplicate [] with hn1
    have hnodup : n1.Nodup := nodup_foldl_deduplicate _ [] List.nodup_nil
    have hid : n1.foldl deduplicate [] = n1 := by
      have := foldl_deduplicate_of_nodup n1 [] (by simpa using hnodup)
      simpa using this
    have hsub : ∀ x ∈ ts, x ∈ n1 := by
      intro x hx
      rw [hn1, mem_foldl_deduplicate]
      exact Or.inr (List.mem_append.mpr (Or.inr hx))
    have : (n1 ++ ts).foldl deduplicate [] = n1 := by
      rw [List.foldl_append, hid]
      exact foldl_deduplicate_subset ts n1 hsub
    rw [this, rset_rset_self]
  · intro evs p l hget
    have hinv : ∀ (st : IntroServer) (l' : List SEvent),
        (∀ e ∈ st.documentIds, List.Nodup e.2) →
        ∀ e ∈ (introRun st l').1.documentIds, List.Nodup e.2 := by
      intro st l'
      induction l' generalizing st with
      | nil => intro h; exact h
      | cons ev rest ih =>
        intro h
        exact ih _ (introStep_preserves_nodup st ev h)
    have hmem := rget_mem _ _ _ hget
    exact hinv IntroServer.init evs (by intro e he; simp [IntroServer.init] at he) (p, l) hmem

/-- A closed instance exercising `claim_C5_idempotent_join`. -/
theorem claim_C5_idempotent_join_witness :
    (introStep (introStep IntroServer.init (joinEv "alice" ["doc-1"])).1
        (joinEv "alice" ["doc-1"])).1.documentIds =
      (introStep IntroServer.init (joinEv "alice" ["doc-1"])).1.documentIds ∧
    rget (introRun IntroServer.init
        [SEvent.connect "alice", joinEv "alice" ["doc-1", "doc-1", "doc-2"]]).1.documentIds
        "alice" = some ["doc-1", "doc-2"] ∧
    (["doc-1", "doc-2"] : List DocumentId).Nodup := by
  refine ⟨claim_C5_idempotent_join.1 IntroServer.init "alice" ["doc-1"], by decide, ?_⟩
  exact claim_C5_idempotent_join.2
    [SEvent.connect "alice", joinEv "alice" ["doc-1", "doc-1", "doc-2"]]
    "alice" ["doc-1", "doc-2"] (by decide)

/-- C2 — Symmetric introduction: if distinct peers `A` and `B` both have
open introduction sockets, `B`'s stored interest list (from its earlier
`Join`) contains `t`, and `A`'s `Join` containing `t` is processed, then
the step writes an `Introduction` to `A` naming `B` and one to `B`
naming `A`, both carrying the same `commonKeys` list, whose members are
exactly the topics in both peers' current interest lists (A's list as
updated by this `Join`, i.e. at send time). -/
theorem claim_C2_symmetric_introduction (st : IntroServer) (A B : PeerId)
    (t : DocumentId) (ts dB : List DocumentId)
    (hAB : A ≠ B)
    (hA : rget st.peers A = some true)
    (hB : rget st.peers B = some true)
    (hdB : rget st.documentIds B = some dB)
    (htB : t ∈ dB) (hts : t ∈ ts) :
    ∃ common,
      SOut.sent A (ServerToClient.introduction B common) ∈
        (introStep st (joinEv A ts)).2 ∧
      SOut.sent B (ServerToClient.introduction A common) ∈
        (introStep st (joinEv A ts)).2 ∧
      (∀ x, x ∈ common ↔
        (x ∈ (rget (introStep st (joinEv A ts)).1.documentIds A).getD [] ∧ x ∈ dB)) := by
  set newA := ((rget st.documentIds A).getD [] ++ ts).foldl deduplicate [] with hnewA
  set st' : IntroServer := ⟨st.peers, rset st.documentIds A newA⟩ with hst'
  have hstep : introStep st (joinEv A ts) = (st', introduceAll st' A) := introStep_join st A ts
  have hdA' : rget st'.documentIds A = some newA := rget_rset_self _ _ _
  have hdB' : rget st'.documentIds B = some dB := by
    rw [hst']
    simpa using (rget_rset_ne st.documentIds A B newA hAB).trans hdB
  have htA : t ∈ newA := by
    rw [hnewA, mem_foldl_deduplicate]
    exact Or.inr (List.mem_append.mpr (Or.inr hts))
  refine ⟨intersection newA dB, ?_, ?_, ?_⟩
  · rw [hstep]
    apply List.mem_flatMap.mpr
    refine ⟨(B, true), rget_mem _ _ _ hB, ?_⟩
    unfold introducePair
    rw [if_neg hAB]
    simp only [hdA', hdB', Option.getD_some]
    rw [if_neg (by
      rw [isEmpty_false_of_ne_nil (intersection_ne_nil newA dB t htA htB)]
      exact Bool.false_ne_true)]
    apply List.mem_append.mpr
    left
    rw [sendIntroduction, send_of_open st' A _ hA]
    exact List.mem_singleton.mpr rfl
  · rw [hstep]
    apply List.mem_flatMap.mpr
    refine ⟨(B, true), rget_mem _ _ _ hB, ?_⟩
    unfold introducePair
    rw [if_neg hAB]
    simp only [hdA', hdB', Option.getD_some]
    rw [if_neg (by
      rw [isEmpty_false_of_ne_nil (intersection_ne_nil newA dB t htA htB)]
      exact Bool.false_ne_true)]
    apply List.mem_append.mpr
    right
    rw [sendIntroduction, send_of_open st' B _ hB]
    exact List.mem_singleton.mpr rfl
  · intro x
    rw [hstep]
    simp only [hdA', Option.getD_some]
    exact mem_intersection newA dB x

/-! #### Counting delivered introductions (claim C7) -/

/-- Number of frames actually written to peer sockets in a batch of
outputs (each `Introduction` delivery counts once). -/
def sentCount (outs : List SOut) : Nat :=
  (outs.filter (fun o => match o with
    | SOut.sent _ _ => true
    | _ => false)).length

theorem sentCount_append (l1 l2 : List SOut) :
    sentCount (l1 ++ l2) = sentCount l1 + sentCount l2 := by
  unfold sentCount
  rw [List.filter_append, List.length_append]

theorem sentCount_flatMap {γ : Type} (l : List γ) (f : γ → List SOut) :
    sentCount (l.flatMap f) = (l.map (fun x => sentCount (f x))).sum := by
  induction l with
  | nil => rfl
  | cons a rest ih =>
    rw [List.flatMap_cons, sentCount_append, ih, List.map_cons, List.sum_cons]

theorem sum_map_eq_mul {γ : Type} (l : List γ) (f : γ → Nat) (c : Nat)
    (h : ∀ x ∈ l, f x = c) : (l.map f).sum = c * l.length := by
  induction l with
  | nil => simp
  | cons a rest ih =>
    rw [List.map_cons, List.sum_cons, h a (List.mem_cons_self _ _),
      ih (fun x hx => h x (List.mem_cons_of_mem _ hx)), List.length_cons]
    ring

/-- A record mapping each key of `qs` to the same value. -/
def constMap {α : Type} (qs : List String) (v : α) : List (String × α) :=
  qs.map (fun p => (p, v))

theorem rget_constMap {α : Type} (qs : List String) (v : α) (q : String) :
    rget (constMap qs v) q = if q ∈ qs then some v else none := by
  induction qs with
  | nil => simp [constMap, rget_nil]
  | cons p rest ih =>
    rw [constMap, List.map_cons]
    rw [rget_cons]
    by_cases hp : p = q
    · rw [if_pos hp, if_pos (by rw [hp]; exact List.mem_cons_self _ _)]
    · rw [if_neg hp]
      rw [show rget (List.map (fun p => (p, v)) rest) q = rget (constMap rest v) q from rfl, ih]
      by_cases hq : q ∈ rest
      · rw [if_pos hq, if_pos (List.mem_cons_of_mem _ hq)]
      · rw [if_neg hq, if_neg ?_]
        intro hc
        rcases List.mem_cons.mp hc with hc | hc
        · exact hp hc.symm
        · exact hq hc

theorem constMap_append {α : Type} (qs rs : List String) (v : α) :
    constMap (qs ++ rs) v = constMap qs v ++ constMap rs v := by
  unfold constMap
  rw [List.map_append]

theorem sentCount_introEvents (ps : List PeerId) :
    sentCount (ps.map SOut.introductionEvent) = 0 := by
  induction ps with
  | nil => rfl
  | cons p rest ih =>
    rw [List.map_cons, show SOut.introductionEvent p :: rest.map SOut.introductionEvent =
      [SOut.introductionEvent p] ++ rest.map SOut.introductionEvent from rfl,
      sentCount_append, ih]
    rfl

/-- The connection phase: each peer's introduction socket is accepted. -/
theorem connectRun (ps qs : List PeerId) (hnd : (qs ++ ps).Nodup) :
    introRun ⟨constMap qs true, []⟩ (ps.map SEvent.connect) =
      (⟨constMap (qs ++ ps) true, []⟩, ps.map SOut.introductionEvent) := by
  induction ps generalizing qs with
  | nil => simp [introRun]
  | cons p rest ih =>
    rw [List.map_cons]
    have hstep : introStep ⟨constMap qs true, ([] : List (PeerId × List DocumentId))⟩
        (SEvent.connect p) =
        (⟨constMap (qs ++ [p]) true, []⟩, [SOut.introductionEvent p]) := by
      simp only [introStep]
      have hp : p ∉ qs := by
        rw [List.nodup_append] at hnd
        exact fun hc => hnd.2.2 hc (List.mem_cons_self _ _)
      have : rget (constMap qs true) p = none := by
        rw [rget_constMap, if_neg hp]
      rw [rset_absent _ _ _ this, constMap_append]
      rfl
    have hnd' : ((qs ++ [p]) ++ rest).Nodup := by
      rw [List.append_assoc]
      exact hnd
    simp only [introRun, hstep, ih (qs ++ [p]) hnd']
    rw [List.append_assoc]
    rfl

/-- Total introductions delivered when peers join one by one:
`introCount q n` is the count when `q` peers already hold the topic and
`n` more join in sequence. -/
def introCount : Nat → Nat → Nat
  | _, 0 => 0
  | q, n + 1 => 2 * q + introCount (q + 1) n

theorem introCount_spec (n q : Nat) : introCount q n + n = n * n + 2 * q * n := by
  induction n generalizing q with
  | zero => rfl
  | succ m ih =>
    have hunf : introCount q (m + 1) = 2 * q + introCount (q + 1) m := rfl
    calc introCount q (m + 1) + (m + 1)
        = 2 * q + (introCount (q + 1) m + m) + 1 := by rw [hunf]; ring
      _ = 2 * q + (m * m + 2 * (q + 1) * m) + 1 := by rw [ih]
      _ = (m + 1) * (m + 1) + 2 * q * (m + 1) := by ring

/-- Processing one `Join` for topic `t` from `A`, when the connected
peers are `P = qs ++ A :: rs` and exactly the peers of `qs` already hold
`[t]`: the state gains `A ↦ [t]` and exactly `2 * qs.length`
introduction frames are delivered. -/
theorem joinStep_spec (P qs rs : List PeerId) (A : PeerId) (t : DocumentId)
    (hP : P = qs ++ A :: rs) (hnd : P.Nodup) :
    introStep ⟨constMap P true, constMap qs [t]⟩ (joinEv A [t]) =
      (⟨constMap P true, constMap (qs ++ [A]) [t]⟩,
        introduceAll ⟨constMap P true, constMap (qs ++ [A]) [t]⟩ A) ∧
    sentCount (introStep ⟨constMap P true, constMap qs [t]⟩ (joinEv A [t])).2 =
      2 * qs.length := by
  have hAq : A ∉ qs := by
    rw [hP, List.nodup_append] at hnd
    exact fun hc => hnd.2.2 hc (List.mem_cons_self _ _)
  have hAr : A ∉ rs := by
    rw [hP, List.nodup_append] at hnd
    have := hnd.2.1
    rw [List.nodup_cons] at this
    exact this.1
  have hgetA : rget (constMap qs [t]) A = none := by
    rw [rget_constMap, if_neg hAq]
  have hstate : introStep ⟨constMap P true, constMap qs [t]⟩ (joinEv A [t]) =
      (⟨constMap P true, constMap (qs ++ [A]) [t]⟩,
        introduceAll ⟨constMap P true, constMap (qs ++ [A]) [t]⟩ A) := by
    rw [introStep_join]
    simp only [hgetA, Option.getD_none]
    rw [rset_absent _ _ _ hgetA]
    rw [show (([] : List DocumentId) ++ [t]).foldl deduplicate [] = [t] from rfl]
    rw [constMap_append]
    rfl
  refine ⟨hstate, ?_⟩
  rw [hstate]
  simp only
  set st' : IntroServer := ⟨constMap P true, constMap (qs ++ [A]) [t]⟩ with hst'
  have hopen : ∀ q ∈ P, rget st'.peers q = some true := by
    intro q hq
    rw [hst']
    simp only
    rw [rget_constMap, if_pos hq]
  have hdocs : ∀ q, rget st'.documentIds q =
      if q ∈ qs ++ [A] then some [t] else none := by
    intro q
    rw [hst']
    simp only
    rw [rget_constMap]
  have hcount2 : ∀ B ∈ qs, sentCount (introducePair st' A B) = 2 := by
    intro B hB
    have hABne : A ≠ B := fun hc => hAq (hc ▸ hB)
    have hBP : B ∈ P := by
      rw [hP]
      exact List.mem_append.mpr (Or.inl hB)
    have hAP : A ∈ P := by
      rw [hP]
      exact List.mem_append.mpr (Or.inr (List.mem_cons_self _ _))
    unfold introducePair
    rw [if_neg hABne]
    rw [hdocs A, hdocs B, if_pos (List.mem_append.mpr (Or.inr (List.mem_singleton.mpr rfl))),
      if_pos (List.mem_append.mpr (Or.inl hB))]
    simp only [Option.getD_some]
    have hmem : t ∈ intersection [t] [t] :=
      (mem_intersection _ _ _).mpr ⟨List.mem_singleton.mpr rfl, List.mem_singleton.mpr rfl⟩
    rw [if_neg (by
      rw [isEmpty_false_of_ne_nil (fun hc => by rw [hc] at hmem; exact List.not_mem_nil t hmem)]
      exact Bool.false_ne_true)]
    rw [sendIntroduction, sendIntroduction, send_of_open st' A _ (hopen A hAP),
      send_of_open st' B _ (hopen B hBP)]
    rfl
  have hcount0 : ∀ B ∈ rs, sentCount (introducePair st' A B) = 0 := by
    intro B hB
    have hABne : A ≠ B := fun hc => hAr (hc ▸ hB)
    have hBq : B ∉ qs ++ [A] := by
      intro hc
      rcases List.mem_append.mp hc with hc | hc
      · rw [hP, List.nodup_append] at hnd
        exact hnd.2.2 hc (List.mem_cons_of_mem _ hB)
      · rcases List.mem_singleton.mp hc with rfl
        exact hAr hB
    unfold introducePair
    rw [if_neg hABne]
    rw [hdocs B, if_neg hBq]
    rw [hdocs A, if_pos (List.mem_append.mpr (Or.inr (List.mem_singleton.mpr rfl)))]
    simp only [Option.getD_some, Option.getD_none]
    rw [if_pos (by rw [show intersection [t] [] = [] from rfl]; rfl)]
    rfl
  have hself : sentCount (introducePair st' A A) = 0 := by
    unfold introducePair
    rw [if_pos rfl]
    rfl
  rw [introduceAll]
  rw [show st'.peers = constMap P true from rfl]
  rw [sentCount_flatMap]
  have hmapP : (constMap P true).map (fun bp => sentCount (introducePair st' A bp.1)) =
      P.map (fun B => sentCount (introducePair st' A B)) := by
    unfold constMap
    rw [List.map_map]
    rfl
  rw [hmapP, hP, List.map_append, List.map_cons, List.sum_append, List.sum_cons]
  rw [sum_map_eq_mul qs _ 2 hcount2, sum_map_eq_mul rs _ 0 hcount0, hself]
  ring

/-- Sequential joins: starting with the peers of `qs` holding `[t]` and
everyone in `P = qs ++ rs` connected, the peers of `rs` join one by one. -/
theorem joinRun_spec (rs qs P : List PeerId) (t : DocumentId)
    (hP : P = qs ++ rs) (hnd : P.Nodup) :
    (introRun ⟨constMap P true, constMap qs [t]⟩ (rs.map (fun p => joinEv p [t]))).1 =
      ⟨constMap P true, constMap (qs ++ rs) [t]⟩ ∧
    sentCount (introRun ⟨constMap P true, constMap qs [t]⟩
        (rs.map (fun p => joinEv p [t]))).2 =
      introCount qs.length rs.length := by
  induction rs generalizing qs with
  | nil =>
    constructor
    · simp [introRun, hP]
    · rfl
  | cons A rest ih =>
    obtain ⟨hstate, hcount⟩ := joinStep_spec P qs rest A t hP hnd
    have hP' : P = (qs ++ [A]) ++ rest := by
      rw [hP, List.append_assoc]
      rfl
    obtain ⟨ihstate, ihcount⟩ := ih (qs ++ [A]) hP'
    rw [List.map_cons]
    constructor
    · simp only [introRun, hstate]
      rw [ihstate, hP', List.append_assoc]
      rfl
    · simp only [introRun, hstate]
      rw [sentCount_append]
      have hc1 : sentCount (introduceAll
          ⟨constMap P true, constMap (qs ++ [A]) [t]⟩ A) = 2 * qs.length := by
        rw [hstate] at hcount
        exact hcount
      rw [hc1, ihcount]
      rw [show (qs ++ [A]).length = qs.length + 1 by rw [List.length_append]; rfl]
      rw [List.length_cons]
      rfl

theorem introRun_cons (st : IntroServer) (ev : SEvent) (evs : List SEvent) :
    introRun st (ev :: evs) =
      ((introRun (introStep st ev).1 evs).1,
        (introStep st ev).2 ++ (introRun (introStep st ev).1 evs).2) := rfl

theorem count_closed (N c : Nat) (h : c + N = N * N) : c = N * (N - 1) := by
  cases N with
  | zero => simpa using h
  | succ m =>
    have hs : (m + 1) * (m + 1) = (m + 1) * m + (m + 1) := by ring
    rw [hs] at h
    have hc : c = (m + 1) * m := Nat.add_right_cancel h
    simpa using hc

/-- C7, as the code violates part of it — counterexample: three connected
peers `a`, `b`, `c` sequentially join topic `t`, but `a` disconnects
mid-sequence (after `b`'s join, before `c`'s).  The server delivers 4
introduction frames (the `a`–`b` pair already exchanged, plus `b`–`c`),
not the `2 × (2 − 1) = 2` the claim predicts for the remaining peers:
introductions already delivered to or about the departed peer are not
retracted. -/
theorem claim_C7_nway_introduction_count_counterexample :
    sentCount (introRun IntroServer.init
      [SEvent.connect "a", SEvent.connect "b", SEvent.connect "c",
        joinEv "a" ["t"], joinEv "b" ["t"], SEvent.closeIntro "a",
        joinEv "c" ["t"]]).2 = 4 ∧
    (4 : Nat) ≠ 2 * (2 - 1) := by
  constructor
  · decide
  · decide

/-- C7 (amended) — N-way introduction count: for `N` distinct peers all
connected and then joining the same topic sequentially, exactly
`N × (N − 1)` introduction frames are delivered (one per ordered pair);
and in the mid-sequence-disconnect scenario the repo tests (the
disconnecting peer closes right after being the first to join, before
any other peer joins), the total is `(N − 1) × (N − 2)`, the count among
the remaining `N − 1` peers. -/
theorem claim_C7_nway_introduction_count_amended :
    (∀ (ps : List PeerId) (t : DocumentId), ps.Nodup →
      sentCount (introRun IntroServer.init
        (ps.map SEvent.connect ++ ps.map (fun p => joinEv p [t]))).2 =
        ps.length * (ps.length - 1)) ∧
    (∀ (p : PeerId) (rest : List PeerId) (t : DocumentId), (p :: rest).Nodup →
      sentCount (introRun IntroServer.init
        ((p :: rest).map SEvent.connect ++
          (joinEv p [t] :: SEvent.closeIntro p ::
            rest.map (fun q => joinEv q [t])))).2 =
        rest.length * (rest.length - 1)) := by
  constructor
  · intro ps t hnd
    have h1 : introRun IntroServer.init (ps.map SEvent.connect) =
        (⟨constMap ps true, []⟩, ps.map SOut.introductionEvent) :=
      connectRun ps [] (by simpa using hnd)
    obtain ⟨hrs, hrc⟩ := joinRun_spec ps [] ps t rfl hnd
    have hrc' : sentCount (introRun ⟨constMap ps true, []⟩
        (ps.map (fun p => joinEv p [t]))).2 = introCount 0 ps.length := hrc
    rw [introRun_append, sentCount_append, h1]
    simp only
    rw [sentCount_introEvents, hrc']
    apply count_closed
    simpa using introCount_spec ps.length 0
  · intro p rest t hnd
    have hndr : rest.Nodup := (List.nodup_cons.mp hnd).2
    have h1 : introRun IntroServer.init ((p :: rest).map SEvent.connect) =
        (⟨constMap (p :: rest) true, []⟩, (p :: rest).map SOut.introductionEvent) :=
      connectRun (p :: rest) [] (by simpa using hnd)
    obtain ⟨hjs, hjc⟩ := joinStep_spec (p :: rest) [] rest p t rfl hnd
    have hjs' : introStep ⟨constMap (p :: rest) true,
        ([] : List (PeerId × List DocumentId))⟩ (joinEv p [t]) =
        (⟨constMap (p :: rest) true, constMap ([] ++ [p]) [t]⟩,
          introduceAll ⟨constMap (p :: rest) true, constMap ([] ++ [p]) [t]⟩ p) := hjs
    have hjc' : sentCount (introduceAll
        ⟨constMap (p :: rest) true, constMap ([] ++ [p]) [t]⟩ p) = 0 := by
      rw [hjs] at hjc
      simpa using hjc
    have hclose : introStep ⟨constMap (p :: rest) true, constMap ([] ++ [p]) [t]⟩
        (SEvent.closeIntro p) = (⟨constMap rest true, []⟩, []) := by
      have e1 : rdel (constMap (p :: rest) true) p = constMap rest true := by
        rw [show constMap (p :: rest) true = (p, true) :: constMap rest true from rfl,
          rdel_cons, if_pos rfl]
      have e2 : rdel (constMap ([] ++ [p]) [t]) p =
          ([] : List (PeerId × List DocumentId)) := by
        rw [show constMap ([] ++ [p]) [t] = [(p, [t])] from rfl, rdel_cons, if_pos rfl]
      simp only [introStep, e1, e2]
    obtain ⟨hrs, hrc⟩ := joinRun_spec rest [] rest t rfl hndr
    have hrc' : sentCount (introRun ⟨constMap rest true, []⟩
        (rest.map (fun q => joinEv q [t]))).2 = introCount 0 rest.length := hrc
    rw [introRun_append, sentCount_append, h1]
    simp only
    rw [sentCount_introEvents]
    rw [introRun_cons, hjs']
    simp only
    rw [introRun_cons, hclose]
    simp only
    rw [sentCount_append, hjc', sentCount_append]
    rw [show sentCount ([] : List SOut) = 0 from rfl, hrc']
    have : introCount 0 rest.length = rest.length * (rest.length - 1) := by
      apply count_closed
      simpa using introCount_spec rest.length 0
    rw [this]
    omega

/-- A closed instance exercising `claim_C7_nway_introduction_count_amended`
at five peers (the repo test's size): 20 introductions, and 12 when the
first joiner disconnects before the others join. -/
theorem claim_C7_nway_introduction_count_amended_witness :
    sentCount (introRun IntroServer.init
      (["a", "b", "c", "d", "e"].map SEvent.connect ++
        ["a", "b", "c", "d", "e"].map (fun p => joinEv p ["t"]))).2 = 20 ∧
    sentCount (introRun IntroServer.init
      (["a", "b", "c", "d", "e"].map SEvent.connect ++
        (joinEv "a" ["t"] :: SEvent.closeIntro "a" ::
          ["b", "c", "d", "e"].map (fun q => joinEv q ["t"])))).2 = 12 := by
  constructor
  · exact claim_C7_nway_introduction_count_amended.1 ["a", "b", "c", "d", "e"] "t" (by decide)
  · exact claim_C7_nway_introduction_count_amended.2 "a" ["b", "c", "d", "e"] "t" (by decide)

/-! ### The connection (rendezvous) service: `openConnection`

Connection sockets are identified by numbers; frames on them are opaque
byte sequences.  `holding` is keyed by the delimiter-joined strings
`A + ":" + B + ":" + documentId` exactly as in the source.  Listener
bookkeeping is explicit because the claims are about it: each
`openConnection` invocation creates a fresh `holdMessage` closure
(identified below by the invocation counter `nextReqId`);
`socket.on("message", holdMessage)` attaches it, and
`removeListener("message", holdMessage)` removes by closure identity.
`socket.on("close", ...)` handlers accumulate likewise. -/

abbrev SocketId := Nat
abbrev Bytes := List Nat

/-- Modelled from the spec: the wire codec (`msgpackr`'s `pack`) is an
external collaborator ("wire encoding of messages... a pluggable
pack/unpack codec").  A binary frame of length below 256 is encoded as
msgpack bin8: the byte 0xC4, the length, then the payload; all frames in
this development are that short.  What matters below is only that the
encoding of a frame is not the frame itself. -/
def pack (m : Bytes) : Bytes := 196 :: m.length :: m

theorem pack_ne_self (m : Bytes) : pack m ≠ m := by
  intro h
  have : (pack m).length = m.length := by rw [h]
  simp [pack] at this
  omega

/-- One entry of `this.holding`: the requester's socket and the queue of
frames received on it while waiting. -/
structure HoldEntry : Type where
  socket : SocketId
  messages : List Bytes
deriving DecidableEq

/-- A `holdMessage` closure currently attached as a `"message"` listener:
the socket it is attached to, the invocation that created it (its
identity as a function object), and the `AseeksB` key it captured. -/
structure HoldListener : Type where
  socket : SocketId
  reqId : Nat
  key : String
deriving DecidableEq

structure BrokerState : Type where
  holding : List (String × HoldEntry)
  msgListeners : List HoldListener
  closeListeners : List (SocketId × String)
  pipes : List (SocketId × SocketId)
  closed : List SocketId
  nextReqId : Nat
deriving DecidableEq

def BrokerState.init : BrokerState := ⟨[], [], [], [], [], 0⟩

inductive BOut : Type
  | sendRaw (receiver : SocketId) (data : Bytes) : BOut
deriving DecidableEq

/-- The string key `` `${A}:${B}:${documentId}` `` identifying a request. -/
def connKey (A B documentId : String) : String :=
  A ++ ":" ++ B ++ ":" ++ documentId

/-- A write to a connection socket, guarded like `send`: only if the
socket's readyState is still OPEN (transient errors are caught). -/
def bsend (st : BrokerState) (s : SocketId) (data : Bytes) : List BOut :=
  if st.closed.contains s then [] else [BOut.sendRaw s data]

/-- Handler `openConnection({ socket, A, B, documentId })` from `Server.ts`.
In the match branch the flush is `messages.forEach(message =>
this.send(socket, message))`, and `send` transmits `pack(message)`; the
subsequent `socketA.removeListener("message", holdMessage)` names the
closure freshly created by this invocation (identity `st.nextReqId`),
which was never attached to anything. -/
def openConnection (st : BrokerState) (A B documentId : String) (socket : SocketId) :
    BrokerState × List BOut :=
  let AseeksB := connKey A B documentId
  let BseeksA := connKey B A documentId
  match rget st.holding BseeksA with
  | some held =>
    (⟨rdel st.holding BseeksA,
      st.msgListeners.filter (fun l => !(l.socket == socket && l.reqId == st.nextReqId)),
      st.closeListeners,
      (socket, held.socket) :: st.pipes,
      st.closed,
      st.nextReqId + 1⟩,
      held.messages.flatMap (fun m => bsend st socket (pack m)))
  | none =>
    (⟨rset st.holding AseeksB ⟨socket, []⟩,
      st.msgListeners ++ [⟨socket, st.nextReqId, AseeksB⟩],
      st.closeListeners ++ [(socket, AseeksB)],
      st.pipes,
      st.closed,
      st.nextReqId + 1⟩,
      [])

/-- The body of a `holdMessage` closure:
`this.holding[AseeksB]?.messages.push(message)` — a no-op if the entry
is gone (optional chaining). -/
def pushHeld (h : List (String × HoldEntry)) (key : String) (data : Bytes) :
    List (String × HoldEntry) :=
  match rget h key with
  | some e => rset h key ⟨e.socket, e.messages ++ [data]⟩
  | none => h

/-- Firing, in attach order, the `holdMessage` listeners attached to
socket `s`. -/
def holdFold (s : SocketId) (data : Bytes) (L : List HoldListener)
    (h0 : List (String × HoldEntry)) : List (String × HoldEntry) :=
  L.foldl (fun h l => if l.socket = s then pushHeld h l.key data else h) h0

/-- Firing, in attach order, the close handlers of socket `s`
(`socketA.on("close", () => delete this.holding[AseeksB])`). -/
def closeFold (s : SocketId) (L : List (SocketId × String))
    (h0 : List (String × HoldEntry)) : List (String × HoldEntry) :=
  L.foldl (fun h cl => if cl.1 = s then rdel h cl.2 else h) h0

/-- A `"message"` event on socket `s`: every attached `holdMessage`
listener appends the frame to its captured holding entry, and each
active pipe containing `s` forwards the frame to the opposite socket.
(The pipe forwarding is modelled from the spec: `lib/pipeSockets.ts` is
imported by `Server.ts` but its file is not among the sources; per the
spec an `ActivePipe` forwards bytes arriving on either side to the other
until either side closes.) -/
def brokerMessage (st : BrokerState) (s : SocketId) (data : Bytes) :
    BrokerState × List BOut :=
  (⟨holdFold s data st.msgListeners st.holding,
    st.msgListeners, st.closeListeners, st.pipes, st.closed, st.nextReqId⟩,
    st.pipes.flatMap (fun pr =>
      if pr.1 = s then bsend st pr.2 data
      else if pr.2 = s then bsend st pr.1 data
      else []))

/-- A `"close"` event on socket `s`: the socket leaves OPEN and every
close handler it accumulated deletes its captured key. -/
def brokerClose (st : BrokerState) (s : SocketId) : BrokerState :=
  ⟨closeFold s st.closeListeners st.holding,
    st.msgListeners, st.closeListeners, st.pipes, s :: st.closed, st.nextReqId⟩

inductive BEvent : Type
  | request (A B documentId : String) (socket : SocketId) : BEvent
  | message (socket : SocketId) (data : Bytes) : BEvent
  | close (socket : SocketId) : BEvent
deriving DecidableEq

def brokerStep (st : BrokerState) : BEvent → BrokerState × List BOut
  | BEvent.request A B documentId socket => openConnection st A B documentId socket
  | BEvent.message socket data => brokerMessage st socket data
  | BEvent.close socket => (brokerClose st socket, [])

def brokerRun : BrokerState → List BEvent → BrokerState × List BOut
  | st, [] => (st, [])
  | st, ev :: evs =>
    let p := brokerStep st ev
    let q := brokerRun p.1 evs
    (q.1, p.2 ++ q.2)

/-- C1, at the concrete failing input — rendezvous buffering and
ordering hold, byte-fidelity does not: requester `a` (socket 1) is held,
sends frames `[10,20,30]` and `[40,50]`, then `b`'s reciprocal request
(socket 2) arrives, after which `a` sends `[60]`.  The buffered queue is
replayed onto the newly arrived transport in receipt order before any
piped traffic, but each replayed frame is re-encoded by `send` as
`pack(frame)` — msgpack-wrapping the already-raw bytes — whereas the
post-pairing frame `[60]` is piped through verbatim; so `b` does not
receive the original payload bytes, contradicting the claim and the
spec's concrete scenario (older snapshots of this repository flushed
with `socketA.send(message)`, i.e. verbatim). -/
theorem claim_C1_rendezvous_ordering_bug :
    (brokerRun BrokerState.init
      [BEvent.request "a" "b" "d" 1, BEvent.message 1 [10, 20, 30],
        BEvent.message 1 [40, 50], BEvent.request "b" "a" "d" 2,
        BEvent.message 1 [60]]).2 =
      [BOut.sendRaw 2 (pack [10, 20, 30]), BOut.sendRaw 2 (pack [40, 50]),
        BOut.sendRaw 2 [60]] ∧
    (brokerRun BrokerState.init
      [BEvent.request "a" "b" "d" 1, BEvent.message 1 [10, 20, 30],
        BEvent.message 1 [40, 50], BEvent.request "b" "a" "d" 2]).1.pipes = [(2, 1)] ∧
    pack [10, 20, 30] ≠ [10, 20, 30] := by
  refine ⟨by decide, by decide, pack_ne_self _⟩

/-- C4, at the concrete failing input — the buffering listener is not
cancelled on pairing: after `a`'s request (socket 1) is matched by `b`'s
reciprocal (socket 2), `removeListener` is called on socket 2 with this
invocation's fresh closure, so the `holdMessage` listener attached to
socket 1 survives pairing (first conjunct).  If the same key is later
re-held (socket 3), a frame arriving on the long-since-paired socket 1
is appended to the new holding buffer (second conjunct), contradicting
the claim that after pairing no inbound frame is appended to any holding
buffer. -/
theorem claim_C4_listener_cancellation_bug :
    (brokerRun BrokerState.init
      [BEvent.request "a" "b" "d" 1, BEvent.request "b" "a" "d" 2]).1.msgListeners =
      [⟨1, 0, connKey "a" "b" "d"⟩] ∧
    rget (brokerRun BrokerState.init
      [BEvent.request "a" "b" "d" 1, BEvent.request "b" "a" "d" 2,
        BEvent.request "a" "b" "d" 3, BEvent.message 1 [9]]).1.holding
      (connKey "a" "b" "d") = some ⟨3, [[9]]⟩ := by
  refine ⟨by decide, by decide⟩

/-- C10 — Holding-key collision: `openConnection` matches requests
purely by equality of the `A + ":" + B + ":" + documentId` strings, so
identifiers containing `:` collide.  Held triple `(x, y:z, d)` and the
incoming triple `(z, x:y, d)` are not reciprocal — the reciprocal of the
held request is `(y:z, x, d)` — yet the incoming request's `BseeksA`
string equals the held key, and the two sockets are spliced into a pipe
as if they were a reciprocal pair. -/
theorem claim_C10_holding_key_collision :
    (("z", "x:y", "d") ≠ (("y:z", "x", "d") : String × String × String)) ∧
    connKey "x:y" "z" "d" = connKey "x" "y:z" "d" ∧
    (brokerRun BrokerState.init
      [BEvent.request "x" "y:z" "d" 1, BEvent.request "z" "x:y" "d" 2]).1.pipes =
      [(2, 1)] := by
  refine ⟨by decide, by decide, by decide⟩

/-! #### Pending-rendezvous lifecycle (claim C3) -/

theorem rget_rdel_of_nodup {α : Type} (m : List (String × α)) (kk k : String) (e : α)
    (hnd : (rkeys m).Nodup) (h : rget (rdel m kk) k = some e) : rget m k = some e := by
  by_cases hk : k = kk
  · subst hk
    rw [rget_rdel_self m k hnd] at h
    exact absurd h (by simp)
  · rw [rget_rdel_ne m kk k (fun hc => hk hc.symm)] at h
    exact h

theorem rget_rdel_none_cases {α : Type} (m : List (String × α)) (kk k : String)
    (h : rget (rdel m kk) k = none) : rget m k = none ∨ k = kk := by
  by_cases hk : k = kk
  · exact Or.inr hk
  · rw [rget_rdel_ne m kk k (fun hc => hk hc.symm)] at h
    exact Or.inl h

theorem rget_some_mem_rkeys {α : Type} (m : List (String × α)) (k : String) (e : α)
    (h : rget m k = some e) : k ∈ rkeys m := by
  by_contra hc
  rw [← rget_eq_none_iff] at hc
  rw [hc] at h
  exact absurd h (by simp)

theorem pushHeld_rkeys (h : List (String × HoldEntry)) (key : String) (data : Bytes) :
    rkeys (pushHeld h key data) = rkeys h := by
  unfold pushHeld
  cases hk : rget h key with
  | none => rfl
  | some e =>
    rw [rkeys_rset, if_pos (rget_some_mem_rkeys h key e hk)]

theorem pushHeld_isSome (h : List (String × HoldEntry)) (key : String) (data : Bytes)
    (k : String) : (rget (pushHeld h key data) k).isSome = (rget h k).isSome := by
  unfold pushHeld
  cases hk : rget h key with
  | none => rfl
  | some e =>
    by_cases hkk : k = key
    · subst hkk
      rw [rget_rset_self, hk]
      rfl
    · rw [rget_rset_ne h key k _ (fun hc => hkk hc.symm)]

theorem pushHeld_socket (h : List (String × HoldEntry)) (key : String) (data : Bytes)
    (k : String) (e : HoldEntry) (hget : rget (pushHeld h key data) k = some e) :
    ∃ e₀, rget h k = some e₀ ∧ e.socket = e₀.socket := by
  unfold pushHeld at hget
  cases hk : rget h key with
  | none =>
    rw [hk] at hget
    exact ⟨e, hget, rfl⟩
  | some e0 =>
    rw [hk] at hget
    by_cases hkk : k = key
    · subst hkk
      rw [rget_rset_self] at hget
      refine ⟨e0, hk, ?_⟩
      have h1 := Option.some.inj hget
      rw [← h1]
    · rw [rget_rset_ne h key k _ (fun hc => hkk hc.symm)] at hget
      exact ⟨e, hget, rfl⟩

theorem holdFold_rkeys (s : SocketId) (data : Bytes) (L : List HoldListener)
    (h0 : List (String × HoldEntry)) : rkeys (holdFold s data L h0) = rkeys h0 := by
  induction L generalizing h0 with
  | nil => rfl
  | cons l L' ih =>
    unfold holdFold
    rw [List.foldl_cons]
    by_cases hl : l.socket = s
    · rw [if_pos hl]
      rw [show List.foldl (fun h l => if l.socket = s then pushHeld h l.key data else h)
        (pushHeld h0 l.key data) L' = holdFold s data L' (pushHeld h0 l.key data) from rfl]
      rw [ih, pushHeld_rkeys]
    · rw [if_neg hl]
      exact ih h0

theorem holdFold_isSome (s : SocketId) (data : Bytes) (L : List HoldListener)
    (h0 : List (String × HoldEntry)) (k : String) :
    (rget (holdFold s data L h0) k).isSome = (rget h0 k).isSome := by
  induction L generalizing h0 with
  | nil => rfl
  | cons l L' ih =>
    unfold holdFold
    rw [List.foldl_cons]
    by_cases hl : l.socket = s
    · rw [if_pos hl]
      rw [show List.foldl (fun h l => if l.socket = s then pushHeld h l.key data else h)
        (pushHeld h0 l.key data) L' = holdFold s data L' (pushHeld h0 l.key data) from rfl]
      rw [ih, pushHeld_isSome]
    · rw [if_neg hl]
      exact ih h0

theorem holdFold_socket (s : SocketId) (data : Bytes) (L : List HoldListener)
    (h0 : List (String × HoldEntry)) (k : String) (e : HoldEntry)
    (hget : rget (holdFold s data L h0) k = some e) :
    ∃ e₀, rget h0 k = some e₀ ∧ e.socket = e₀.socket := by
  induction L generalizing h0 with
  | nil => exact ⟨e, hget, rfl⟩
  | cons l L' ih =>
    unfold holdFold at hget
    rw [List.foldl_cons] at hget
    by_cases hl : l.socket = s
    · rw [if_pos hl] at hget
      rw [show List.foldl (fun h l => if l.socket = s then pushHeld h l.key data else h)
        (pushHeld h0 l.key data) L' = holdFold s data L' (pushHeld h0 l.key data) from rfl] at hget
      obtain ⟨e1, hget1, hs1⟩ := ih _ hget
      obtain ⟨e0, hget0, hs0⟩ := pushHeld_socket h0 l.key data k e1 hget1
      exact ⟨e0, hget0, hs1.trans hs0⟩
    · rw [if_neg hl] at hget
      exact ih h0 hget

theorem closeFold_cons (s : SocketId) (cl : SocketId × String)
    (L : List (SocketId × String)) (h0 : List (String × HoldEntry)) :
    closeFold s (cl :: L) h0 =
      closeFold s L (if cl.1 = s then rdel h0 cl.2 else h0) := by
  unfold closeFold
  rw [List.foldl_cons]

theorem closeFold_nodup (s : SocketId) (L : List (SocketId × String))
    (h0 : List (String × HoldEntry)) (hnd : (rkeys h0).Nodup) :
    (rkeys (closeFold s L h0)).Nodup := by
  induction L generalizing h0 with
  | nil => exact hnd
  | cons cl L' ih =>
    rw [closeFold_cons]
    by_cases hl : cl.1 = s
    · rw [if_pos hl]
      exact ih _ (rkeys_rdel_nodup h0 cl.2 hnd)
    · rw [if_neg hl]
      exact ih _ hnd

theorem closeFold_some (s : SocketId) (L : List (SocketId × String))
    (h0 : List (String × HoldEntry)) (k : String) (e : HoldEntry)
    (hnd : (rkeys h0).Nodup) (hget : rget (closeFold s L h0) k = some e) :
    rget h0 k = some e := by
  induction L generalizing h0 with
  | nil => exact hget
  | cons cl L' ih =>
    rw [closeFold_cons] at hget
    by_cases hl : cl.1 = s
    · rw [if_pos hl] at hget
      exact rget_rdel_of_nodup h0 cl.2 k e hnd
        (ih _ (rkeys_rdel_nodup h0 cl.2 hnd) hget)
    · rw [if_neg hl] at hget
      exact ih _ hnd hget

theorem closeFold_removes (s : SocketId) (L : List (SocketId × String))
    (h0 : List (String × HoldEntry)) (k : String)
    (hnd : (rkeys h0).Nodup) (hmem : (s, k) ∈ L ∨ rget h0 k = none) :
    rget (closeFold s L h0) k = none := by
  induction L generalizing h0 with
  | nil =>
    rcases hmem with hmem | hmem
    · exact absurd hmem (List.not_mem_nil _)
    · exact hmem
  | cons cl L' ih =>
    rw [closeFold_cons]
    rcases hmem with hmem | hmem
    · rcases List.mem_cons.mp hmem with hmem | hmem
      · rw [← hmem, if_pos rfl]
        exact ih _ (rkeys_rdel_nodup h0 k hnd) (Or.inr (rget_rdel_self h0 k hnd))
      · by_cases hl : cl.1 = s
        · rw [if_pos hl]
          exact ih _ (rkeys_rdel_nodup h0 cl.2 hnd) (Or.inl hmem)
        · rw [if_neg hl]
          exact ih _ hnd (Or.inl hmem)
    · by_cases hl : cl.1 = s
      · rw [if_pos hl]
        exact ih _ (rkeys_rdel_nodup h0 cl.2 hnd) (Or.inr (rget_rdel_none h0 cl.2 k hmem))
      · rw [if_neg hl]
        exact ih _ hnd (Or.inr hmem)

theorem closeFold_none_cases (s : SocketId) (L : List (SocketId × String))
    (h0 : List (String × HoldEntry)) (k : String)
    (hnone : rget (closeFold s L h0) k = none) :
    rget h0 k = none ∨ (s, k) ∈ L := by
  induction L generalizing h0 with
  | nil => exact Or.inl hnone
  | cons cl L' ih =>
    rw [closeFold_cons] at hnone
    by_cases hl : cl.1 = s
    · rw [if_pos hl] at hnone
      rcases ih _ hnone with h1 | h1
      · rcases rget_rdel_none_cases h0 cl.2 k h1 with h2 | h2
        · exact Or.inl h2
        · right
          rw [h2, ← hl]
          exact List.mem_cons_self _ _
      · exact Or.inr (List.mem_cons_of_mem _ h1)
    · rw [if_neg hl] at hnone
      rcases ih _ hnone with h1 | h1
      · exact Or.inl h1
      · exact Or.inr (List.mem_cons_of_mem _ h1)

/-- The broker invariant backing claim C3: the holding table has at most
one entry per key, and each held entry's socket has a registered close
handler for that key. -/
def BrokerInv (st : BrokerState) : Prop :=
  (rkeys st.holding).Nodup ∧
  ∀ k e, rget st.holding k = some e → (e.socket, k) ∈ st.closeListeners

theorem brokerStep_inv (st : BrokerState) (ev : BEvent) (h : BrokerInv st) :
    BrokerInv (brokerStep st ev).1 := by
  cases ev with
  | request A B documentId s =>
    cases hm : rget st.holding (connKey B A documentId) with
    | some held =>
      simp only [brokerStep, openConnection, hm]
      constructor
      · exact rkeys_rdel_nodup _ _ h.1
      · intro k e hget
        exact h.2 k e (rget_rdel_of_nodup _ _ _ _ h.1 hget)
    | none =>
      simp only [brokerStep, openConnection, hm]
      constructor
      · exact rkeys_rset_nodup _ _ _ h.1
      · intro k e hget
        by_cases hk : k = connKey A B documentId
        · subst hk
          rw [rget_rset_self] at hget
          have he : e = ⟨s, []⟩ := by injection hget with h1; rw [← h1]
          rw [he]
          exact List.mem_append.mpr (Or.inr (List.mem_singleton.mpr rfl))
        · rw [rget_rset_ne _ _ _ _ (fun hc => hk hc.symm)] at hget
          exact List.mem_append.mpr (Or.inl (h.2 k e hget))
  | message s data =>
    simp only [brokerStep, brokerMessage]
    constructor
    · rw [holdFold_rkeys]
      exact h.1
    · intro k e hget
      obtain ⟨e0, hget0, hs0⟩ := holdFold_socket s data st.msgListeners st.holding k e hget
      rw [hs0]
      exact h.2 k e0 hget0
  | close s =>
    simp only [brokerStep, brokerClose]
    constructor
    · exact closeFold_nodup _ _ _ h.1
    · intro k e hget
      exact h.2 k e (closeFold_some _ _ _ _ _ h.1 hget)

theorem brokerRun_inv (evs : List BEvent) :
    BrokerInv (brokerRun BrokerState.init evs).1 := by
  suffices hgen : ∀ (st : BrokerState), BrokerInv st → BrokerInv (brokerRun st evs).1 by
    refine hgen BrokerState.init ⟨List.nodup_nil, ?_⟩
    intro k e hget
    have h0 : rget BrokerState.init.holding k = none := rget_nil k
    rw [h0] at hget
    cases hget
  induction evs with
  | nil => intro st h; exact h
  | cons ev rest ih =>
    intro st h
    exact ih _ (brokerStep_inv st ev h)

/-- C3 — Pending-rendezvous lifecycle, over every reachable broker state:
(a) at most one pending entry per (delimiter-joined) ordered triple;
(b) the instant the reciprocal request arrives, the held entry is
consumed into a pipe with the new socket and removed;
(c) when the holding entry's own transport closes, the entry (and with
it its message queue) is removed, so a later fresh request finds no
stale match;
(d) an entry disappears only through those two events: a request whose
reciprocal key is the entry's key, or the close of a socket registered
as a requester for that key (`closeListeners` records exactly the
sockets that were held as requester under that key). -/
theorem claim_C3_pending_lifecycle (evs : List BEvent) :
    (rkeys (brokerRun BrokerState.init evs).1.holding).Nodup ∧
    (∀ A B documentId s e,
      rget (brokerRun BrokerState.init evs).1.holding (connKey B A documentId) = some e →
      rget (brokerStep (brokerRun BrokerState.init evs).1
          (BEvent.request A B documentId s)).1.holding (connKey B A documentId) = none ∧
      (s, e.socket) ∈ (brokerStep (brokerRun BrokerState.init evs).1
          (BEvent.request A B documentId s)).1.pipes) ∧
    (∀ k e, rget (brokerRun BrokerState.init evs).1.holding k = some e →
      rget (brokerStep (brokerRun BrokerState.init evs).1
          (BEvent.close e.socket)).1.holding k = none) ∧
    (∀ k e ev, rget (brokerRun BrokerState.init evs).1.holding k = some e →
      rget (brokerStep (brokerRun BrokerState.init evs).1 ev).1.holding k = none →
      (∃ A B documentId s, ev = BEvent.request A B documentId s ∧
        k = connKey B A documentId) ∨
      (∃ s, ev = BEvent.close s ∧
        (s, k) ∈ (brokerRun BrokerState.init evs).1.closeListeners)) := by
  have hinv := brokerRun_inv evs
  set st := (brokerRun BrokerState.init evs).1 with hst
  refine ⟨hinv.1, ?_, ?_, ?_⟩
  · intro A B documentId s e hget
    simp only [brokerStep, openConnection, hget]
    constructor
    · exact rget_rdel_self _ _ hinv.1
    · exact List.mem_cons_self _ _
  · intro k e hget
    have hcl : (e.socket, k) ∈ st.closeListeners := hinv.2 k e hget
    simp only [brokerStep, brokerClose]
    exact closeFold_removes _ _ _ _ hinv.1 (Or.inl hcl)
  · intro k e ev hget hnone
    cases ev with
    | request A B documentId s =>
      cases hm : rget st.holding (connKey B A documentId) with
      | some held =>
        simp only [brokerStep, openConnection, hm] at hnone
        rcases rget_rdel_none_cases st.holding (connKey B A documentId) k hnone with h1 | h1
        · rw [h1] at hget
          exact absurd hget (by simp)
        · exact Or.inl ⟨A, B, documentId, s, rfl, h1⟩
      | none =>
        simp only [brokerStep, openConnection, hm] at hnone
        by_cases hk : k = connKey A B documentId
        · subst hk
          rw [rget_rset_self] at hnone
          exact absurd hnone (by simp)
        · rw [rget_rset_ne _ _ _ _ (fun hc => hk hc.symm)] at hnone
          rw [hnone] at hget
          exact absurd hget (by simp)
    | message s data =>
      simp only [brokerStep, brokerMessage] at hnone
      have hsome := holdFold_isSome s data st.msgListeners st.holding k
      rw [hnone, hget] at hsome
      exact absurd hsome (by simp)
    | close s =>
      simp only [brokerStep, brokerClose] at hnone
      rcases closeFold_none_cases s st.closeListeners st.holding k hnone with h1 | h1
      · rw [h1] at hget
        exact absurd hget (by simp)
      · exact Or.inr ⟨s, rfl, h1⟩

/-- A closed instance exercising `claim_C3_pending_lifecycle`: after `a`'s
request for `(a, b, d)` is held on socket 0, `b`'s reciprocal request on
socket 1 consumes the entry into a pipe and removes it, and a close of
socket 0 would likewise remove it. -/
theorem claim_C3_pending_lifecycle_witness :
    (rget (brokerStep (brokerRun BrokerState.init
        [BEvent.request "a" "b" "d" 0]).1
        (BEvent.request "b" "a" "d" 1)).1.holding (connKey "a" "b" "d") = none ∧
      (1, 0) ∈ (brokerStep (brokerRun BrokerState.init
        [BEvent.request "a" "b" "d" 0]).1 (BEvent.request "b" "a" "d" 1)).1.pipes) ∧
    rget (brokerStep (brokerRun BrokerState.init
        [BEvent.request "a" "b" "d" 0]).1
        (BEvent.close 0)).1.holding (connKey "a" "b" "d") = none := by
  constructor
  · exact (claim_C3_pending_lifecycle [BEvent.request "a" "b" "d" 0]).2.1
      "b" "a" "d" 1 ⟨0, []⟩ (by decide)
  · exact (claim_C3_pending_lifecycle [BEvent.request "a" "b" "d" 0]).2.2.1
      (connKey "a" "b" "d") ⟨0, []⟩ (by decide)

/-! ### `Client.ts`: reconnection backoff

`retryDelay` and the configuration are JS numbers; they are modelled as
rationals (every quantity involved — the defaults 10, 1.5, 30000, the
jitter bounds ±0.05, and the finitely many products below — is exactly
representable, so the modelled trajectory matches the float one).  The
jitter `Math.random() * 0.1 - 0.05` is a parameter in `[-1/20, 1/20]`. -/

structure RetryConfig : Type where
  minRetryDelay : ℚ
  maxRetryDelay : ℚ
  backoffFactor : ℚ
deriving DecidableEq

/-- The delay update in `tryToReopen`:
`if (this.retryDelay < this.maxRetryDelay) this.retryDelay *= this.backoffFactor + Math.random() * 0.1 - 0.05`. -/
def tryToReopenDelay (c : RetryConfig) (jitter retryDelay : ℚ) : ℚ :=
  if retryDelay < c.maxRetryDelay then retryDelay * (c.backoffFactor + jitter)
  else retryDelay

/-- Handler `onServerOpen` runs `this.retryDelay = this.minRetryDelay`. -/
def onServerOpenDelay (c : RetryConfig) (retryDelay : ℚ) : ℚ := c.minRetryDelay

/-- The constructor defaults:
`minRetryDelay = 10, backoffFactor = 1.5, maxRetryDelay = 30000`. -/
def defaultRetryConfig : RetryConfig := ⟨10, 30000, 3 / 2⟩

/-- Value of `retryDelay` after `n` consecutive failures with the default options
and zero jitter (`Math.random() = 0.5` makes the jitter term exactly 0),
starting from the constructor's `retryDelay = minRetryDelay`. -/
def defaultRetrySeq : Nat → ℚ
  | 0 => 10
  | n + 1 => tryToReopenDelay defaultRetryConfig 0 (defaultRetrySeq n)

/-- C8, as the code violates part of it — counterexample: with the
default options and zero jitter, the 19th consecutive failure leaves
`retryDelay ≈ 22168.4 < 30000`, so the 20th failure multiplies again and
`retryDelay ≈ 33252.6` exceeds `maxRetryDelay`: the code only stops
growing once the delay is at or above the cap, it never clamps to it. -/
theorem claim_C8_retry_backoff_counterexample :
    defaultRetrySeq 19 < 30000 ∧ 30000 < defaultRetrySeq 20 := by
  constructor
  · norm_num [defaultRetrySeq, tryToReopenDelay, defaultRetryConfig]
  · norm_num [defaultRetrySeq, tryToReopenDelay, defaultRetryConfig]

/-- C8 (amended) — Client retry backoff: while `retryDelay` is below
`maxRetryDelay`, each consecutive failure multiplies it by
`backoffFactor` plus a jitter in `[-0.05, 0.05]`; once it is at or above
`maxRetryDelay` it is not increased further, so it can overshoot the cap
by at most one multiplication and never exceeds
`maxRetryDelay * (backoffFactor + 0.05)`; a successful reconnect resets
it to `minRetryDelay`. -/
theorem claim_C8_retry_backoff_amended (c : RetryConfig) (j d : ℚ)
    (hd : 0 ≤ d)
    (hj1 : -(1 / 20) ≤ j) (hj2 : j ≤ 1 / 20)
    (hb : 1 ≤ c.backoffFactor)
    (hmax : 0 ≤ c.maxRetryDelay) :
    (d < c.maxRetryDelay → tryToReopenDelay c j d = d * (c.backoffFactor + j)) ∧
    (c.maxRetryDelay ≤ d → tryToReopenDelay c j d = d) ∧
    (d ≤ c.maxRetryDelay * (c.backoffFactor + 1 / 20) →
      tryToReopenDelay c j d ≤ c.maxRetryDelay * (c.backoffFactor + 1 / 20)) ∧
    onServerOpenDelay c d = c.minRetryDelay := by
  refine ⟨?_, ?_, ?_, rfl⟩
  · intro h
    unfold tryToReopenDelay
    rw [if_pos h]
  · intro h
    unfold tryToReopenDelay
    rw [if_neg (not_lt.mpr h)]
  · intro hbound
    unfold tryToReopenDelay
    by_cases h : d < c.maxRetryDelay
    · rw [if_pos h]
      have h1 : c.backoffFactor + j ≤ c.backoffFactor + 1 / 20 := by linarith
      have h2 : 0 ≤ c.backoffFactor + j := by linarith
      exact mul_le_mul h.le h1 h2 hmax
    · rw [if_neg h]
      exact hbound

/-- A closed instance exercising `claim_C8_retry_backoff_amended` at the
default options with zero jitter. -/
theorem claim_C8_retry_backoff_amended_witness :
    tryToReopenDelay defaultRetryConfig 0 10 = 15 ∧
    onServerOpenDelay defaultRetryConfig 10 = 10 := by
  have h := claim_C8_retry_backoff_amended defaultRetryConfig 0 10
    (by norm_num) (by norm_num) (by norm_num)
    (by norm_num [defaultRetryConfig]) (by norm_num [defaultRetryConfig])
  constructor
  · rw [h.1 (by norm_num [defaultRetryConfig])]
    norm_num [defaultRetryConfig]
  · rw [h.2.2.2]
    norm_num [defaultRetryConfig]

/-- A closed instance exercising `claim_C2_symmetric_introduction`. -/
theorem claim_C2_symmetric_introduction_witness :
    ∃ common,
      SOut.sent "alice" (ServerToClient.introduction "bob" common) ∈
        (introStep ⟨[("bob", true), ("alice", true)], [("bob", ["doc-1"])]⟩
          (joinEv "alice" ["doc-1"])).2 ∧
      SOut.sent "bob" (ServerToClient.introduction "alice" common) ∈
        (introStep ⟨[("bob", true), ("alice", true)], [("bob", ["doc-1"])]⟩
          (joinEv "alice" ["doc-1"])).2 ∧
      (∀ x, x ∈ common ↔
        (x ∈ (rget (introStep ⟨[("bob", true), ("alice", true)], [("bob", ["doc-1"])]⟩
          (joinEv "alice" ["doc-1"])).1.documentIds "alice").getD [] ∧ x ∈ ["doc-1"])) :=
  claim_C2_symmetric_introduction
    ⟨[("bob", true), ("alice", true)], [("bob", ["doc-1"])]⟩
    "alice" "bob" "doc-1" ["doc-1"] ["doc-1"]
    (by decide) (by decide) (by decide) (by decide) (by decide) (by decide)

end Relay
